import Mathlib

/-!
Shallow embedding of the voice / synthesiser core of
src/Source/SynthUsingMidiInput.h (JUCE-MIDI-Synthesizer).

The C++ double arithmetic is embedded as real arithmetic.  Components of
the JUCE library that the repository only calls (juce::Synthesiser,
juce::MidiMessageCollector, juce::MidiMessage::getMidiNoteInHertz) are
modelled from the spec; their definitions carry a doc comment saying so.
-/

namespace SynthMidi

/-- Per-voice mutable state of SineWaveVoice (lines 147-149 of the source:
currentAngle, angleDelta, level, tailOff, decay, all double, member-default
initialised to 0.0) together with the two pieces of juce::SynthesiserVoice
base-class state the file uses: the playback sample rate (getSampleRate) and
the currently bound note (set by the pool on note-on, cleared by
clearCurrentNote). -/
@[ext]
structure SineWaveVoice where
  currentAngle : ℝ := 0
  angleDelta : ℝ := 0
  level : ℝ := 0
  tailOff : ℝ := 0
  decay : ℝ := 0
  sampleRate : ℝ := 0
  currentNote : Option Int := none

/-- Member-initialiser state of SineWaveVoice: every field at its C++
member default (all doubles 0.0, no bound note). -/
def memberInit : SineWaveVoice := {}

/-- The SineWaveVoice constructor (line 62): SineWaveVoice() : decay(0.999),
overriding only the decay member default. -/
noncomputable def mkSineWaveVoice : SineWaveVoice := { memberInit with decay := 0.999 }

/-- Modelled from the spec: juce::MidiMessage::getMidiNoteInHertz, the
standard MIDI-note-to-Hz formula (A4 = note 69 = 440 Hz, 12-tone equal
temperament); the library function itself is not part of the repository. -/
noncomputable def getMidiNoteInHertz (noteNumber : Int) : ℝ :=
  440 * (2 : ℝ) ^ (((noteNumber : ℝ) - 69) / 12)

/-- SineWaveVoice::startNote (lines 69-80): reset phase, set level from
velocity, clear tail-off, derive the per-sample angle increment from the
note frequency and the sample rate.  The unused sound and pitch-wheel
parameters are dropped. -/
noncomputable def startNote (v : SineWaveVoice) (midiNoteNumber : Int) (velocity : ℝ) :
    SineWaveVoice :=
  let cyclesPerSecond := getMidiNoteInHertz midiNoteNumber
  let cyclesPerSample := cyclesPerSecond / v.sampleRate
  { v with
    currentAngle := 0
    level := velocity * 0.15
    tailOff := 0
    angleDelta := cyclesPerSample * 2 * Real.pi }

/-- SineWaveVoice::stopNote (lines 82-94): with allowTailOff, start the
release (tailOff := 1) only if not already releasing; without it, clear the
current note and zero the angle increment.  The unused velocity parameter
is dropped. -/
noncomputable def stopNote (v : SineWaveVoice) (allowTailOff : Bool) : SineWaveVoice :=
  if allowTailOff then
    if v.tailOff = 0 then { v with tailOff := 1 } else v
  else
    { v with currentNote := none, angleDelta := 0 }

/-- SineWaveVoice::setDecay (lines 99-102). -/
def setDecay (v : SineWaveVoice) (newDecay : ℝ) : SineWaveVoice :=
  { v with decay := newDecay }

/-- A multi-channel sample buffer: channel index and sample index to value.
Channels outside the buffer's channel count are never written; the count is
passed to the rendering functions as an explicit argument (the C++ reads it
from the buffer as outputBuffer.getNumChannels()). -/
abbrev Buffer := ℕ → ℕ → ℝ

/-- The all-zero buffer. -/
def zeroBuffer : Buffer := fun _ _ => 0

/-- One pass of the channel loop of SineWaveVoice::renderNextBlock
(lines 114-115 and 137-138): outputBuffer.addSample (i, startSample,
currentSample) for every channel i below the channel count, adding the
identical value to the prior contents. -/
def addToAllChannels (numChannels : ℕ) (b : Buffer) (idx : ℕ) (val : ℝ) : Buffer :=
  fun ch q => if ch < numChannels ∧ q = idx then b ch q + val else b ch q

/-- The per-sample state update of the tail-off loop (lines 117-120):
advance the phase by angleDelta and multiply tailOff by decay. -/
def tailStep (v : SineWaveVoice) : SineWaveVoice :=
  { v with currentAngle := v.currentAngle + v.angleDelta, tailOff := v.tailOff * v.decay }

/-- The effect of clearCurrentNote(); angleDelta = 0.0 (lines 124-126 and
91-92): unbind the note and silence the oscillator. -/
def freeVoice (v : SineWaveVoice) : SineWaveVoice :=
  { v with currentNote := none, angleDelta := 0 }

/-- The voice state after k un-interrupted iterations of the tail-off loop:
phase advanced k times, tailOff multiplied by decay k times. -/
noncomputable def tailAdvance (v : SineWaveVoice) (k : ℕ) : SineWaveVoice :=
  { v with
    currentAngle := v.currentAngle + (k : ℝ) * v.angleDelta
    tailOff := v.tailOff * v.decay ^ k }

/-- The tail-off rendering loop of SineWaveVoice::renderNextBlock
(lines 110-129): while samples remain, write sin(currentAngle) * level *
tailOff to every channel, advance the phase, decay the tail, and break out
freeing the voice as soon as tailOff falls to or below 0.005. -/
noncomputable def tailLoop (numChannels : ℕ) :
    SineWaveVoice → Buffer → ℕ → ℕ → SineWaveVoice × Buffer
  | v, b, _, 0 => (v, b)
  | v, b, startSample, n + 1 =>
    let b' := addToAllChannels numChannels b startSample
      (Real.sin v.currentAngle * v.level * v.tailOff)
    let v' := tailStep v
    if v'.tailOff ≤ 0.005 then (freeVoice v', b')
    else tailLoop numChannels v' b' (startSample + 1) n

/-- The sustain rendering loop of SineWaveVoice::renderNextBlock
(lines 133-142): write sin(currentAngle) * level to every channel and
advance the phase, for the whole requested range. -/
noncomputable def sustainLoop (numChannels : ℕ) :
    SineWaveVoice → Buffer → ℕ → ℕ → SineWaveVoice × Buffer
  | v, b, _, 0 => (v, b)
  | v, b, startSample, n + 1 =>
    let b' := addToAllChannels numChannels b startSample
      (Real.sin v.currentAngle * v.level)
    let v' := { v with currentAngle := v.currentAngle + v.angleDelta }
    sustainLoop numChannels v' b' (startSample + 1) n

/-- SineWaveVoice::renderNextBlock (lines 104-145): do nothing for an idle
voice (angleDelta == 0); otherwise run the tail-off loop when releasing
(tailOff > 0) and the sustain loop when not. -/
noncomputable def renderNextBlock (numChannels : ℕ) (v : SineWaveVoice) (b : Buffer)
    (startSample numSamples : ℕ) : SineWaveVoice × Buffer :=
  if v.angleDelta ≠ 0 then
    if v.tailOff > 0 then tailLoop numChannels v b startSample numSamples
    else sustainLoop numChannels v b startSample numSamples
  else (v, b)

/-- Outcome of SineWaveVoice::renderNextBlock on a releasing voice, as
claim C4 describes it: k samples rendered, each adding
sin(phase) * level * tailOff (with the tail decayed once per sample) to
every channel, all other cells untouched, no threshold crossing before
step k, and the terminal voice state freed on early exit at
tailOff * decay ^ k ≤ 0.005 or merely advanced when the budget ran out. -/
noncomputable def TailRenderOutcome (numChannels : ℕ) (v : SineWaveVoice) (b : Buffer)
    (p n : ℕ) : Prop :=
  ∃ k, k ≤ n ∧
    (∀ j, j < k → ∀ ch, ch < numChannels →
      (renderNextBlock numChannels v b p n).2 ch (p + j)
        = b ch (p + j)
          + Real.sin (v.currentAngle + (j : ℝ) * v.angleDelta) * v.level
            * (v.tailOff * v.decay ^ j)) ∧
    (∀ ch q, q < p ∨ p + k ≤ q → (renderNextBlock numChannels v b p n).2 ch q = b ch q) ∧
    (∀ ch q, numChannels ≤ ch → (renderNextBlock numChannels v b p n).2 ch q = b ch q) ∧
    (∀ i, 0 < i → i < k → 0.005 < v.tailOff * v.decay ^ i) ∧
    ((0 < k ∧ v.tailOff * v.decay ^ k ≤ 0.005 ∧
        (renderNextBlock numChannels v b p n).1 = freeVoice (tailAdvance v k)) ∨
     (k = n ∧ (n = 0 ∨ 0.005 < v.tailOff * v.decay ^ n) ∧
        (renderNextBlock numChannels v b p n).1 = tailAdvance v n))

/-- One audio render callback as seen by a single voice: channel count,
output buffer, start sample and sample budget of the call. -/
structure RenderCall where
  numChannels : ℕ
  buf : Buffer
  startSample : ℕ
  numSamples : ℕ

/-- Voice state threaded through a sequence of render callbacks (buffer
outputs discarded). -/
noncomputable def renderCalls : SineWaveVoice → List RenderCall → SineWaveVoice
  | v, [] => v
  | v, c :: rest =>
    renderCalls (renderNextBlock c.numChannels v c.buf c.startSample c.numSamples).1 rest

/-- Total number of samples budgeted across a sequence of render calls. -/
def callTotal (calls : List RenderCall) : ℕ :=
  (calls.map RenderCall.numSamples).sum

/-- All channels below the channel count hold identical samples (the
mono-fan property of the shared buffer). -/
def ChUniform (numChannels : ℕ) (b : Buffer) : Prop :=
  ∀ ch1, ch1 < numChannels → ∀ ch2, ch2 < numChannels → ∀ q, b ch1 q = b ch2 q

/-- The samples a lone voice writes into the zero buffer: its independent
contribution to a render call. -/
noncomputable def voiceContribution (numChannels : ℕ) (v : SineWaveVoice) (p n : ℕ) : Buffer :=
  (renderNextBlock numChannels v zeroBuffer p n).2

/-- SineWaveSound (lines 51-57): the universal sound descriptor; its two
predicates accept every note and every channel. -/
structure SineWaveSound

/-- SineWaveSound::appliesToNote (line 55): always true. -/
def SineWaveSound.appliesToNote (_s : SineWaveSound) (_note : Int) : Bool := true

/-- SineWaveSound::appliesToChannel (line 56): always true. -/
def SineWaveSound.appliesToChannel (_s : SineWaveSound) (_channel : Int) : Bool := true

/-- Modelled from the spec: the note-on matching policy of
juce::Synthesiser (spec 4.3 step 3), which is not part of the repository:
scan voices in pool order; the first voice that is idle (bound to no note)
while some sound descriptor accepts the note is bound to the note and
started; if no such voice exists the event is silently dropped. -/
noncomputable def synthNoteOn (sounds : List SineWaveSound) (note : Int) (velocity : ℝ) :
    List SineWaveVoice → List SineWaveVoice
  | [] => []
  | v :: rest =>
    if v.currentNote = none ∧ (sounds.any fun s => s.appliesToNote note) = true then
      { startNote v note velocity with currentNote := some note } :: rest
    else v :: synthNoteOn sounds note velocity rest

/-- Modelled from the spec: the note-off policy of juce::Synthesiser
(spec 4.3 step 4), which is not part of the repository: stop every voice
currently bound to the note (at most one by the pool invariant). -/
noncomputable def synthNoteOff (note : Int) (allowTailOff : Bool)
    (voices : List SineWaveVoice) : List SineWaveVoice :=
  voices.map fun v => if v.currentNote = some note then stopNote v allowTailOff else v

/-- The pool built by the SynthAudioSource constructor (lines 156-163):
four SineWaveVoice instances added in a loop. -/
noncomputable def initialVoices : List SineWaveVoice := List.replicate 4 mkSineWaveVoice

/-- The sound list built by the SynthAudioSource constructor (line 162):
one SineWaveSound. -/
def initialSounds : List SineWaveSound := [⟨⟩]

/-- Number of voices currently bound to a note. -/
def activeVoiceCount (voices : List SineWaveVoice) : ℕ :=
  (voices.filter fun v => v.currentNote.isSome).length

/-- A MIDI event as the core consumes it: timestamp in samples relative to
the current block, note-on flag, note number and velocity. -/
structure MidiEvent where
  ts : ℕ
  isNoteOn : Bool
  note : Int
  velocity : ℝ

/-- Modelled from the spec: applying one MIDI event to the pool (spec 4.3
steps 3-4): a note-on runs the matching policy, a note-off stops the bound
voice with tail-off allowed. -/
noncomputable def handleMidiEvent (sounds : List SineWaveSound) (e : MidiEvent)
    (voices : List SineWaveVoice) : List SineWaveVoice :=
  if e.isNoteOn then synthNoteOn sounds e.note e.velocity voices
  else synthNoteOff e.note true voices

/-- Rendering every voice of the pool additively into the shared buffer
(spec 4.3: per-voice rendering aggregated into one output buffer). -/
noncomputable def renderVoices (numChannels : ℕ) :
    List SineWaveVoice → Buffer → ℕ → ℕ → List SineWaveVoice × Buffer
  | [], b, _, _ => ([], b)
  | v :: rest, b, p, n =>
    let r := renderNextBlock numChannels v b p n
    let rr := renderVoices numChannels rest r.2 p n
    (r.1 :: rr.1, rr.2)

/-- Modelled from the spec: juce::Synthesiser::renderNextBlock (spec 4.3
step 2), which is not part of the repository: walk the events in timestamp
order, render all voices up to each event's (clamped) timestamp, apply the
event, and render the remaining tail of the block after the last event. -/
noncomputable def synthRenderBlock (numChannels : ℕ) (sounds : List SineWaveSound) :
    List MidiEvent → List SineWaveVoice → Buffer → ℕ → ℕ → List SineWaveVoice × Buffer
  | [], voices, b, pos, endPos => renderVoices numChannels voices b pos (endPos - pos)
  | e :: rest, voices, b, pos, endPos =>
    let t := min (max e.ts pos) endPos
    let r := renderVoices numChannels voices b pos (t - pos)
    synthRenderBlock numChannels sounds rest (handleMidiEvent sounds e r.1) r.2 t endPos

/-- bufferToFill.clearActiveBufferRegion() as called at line 185: zero
every cell of the active region (all channels below the channel count,
samples in the window) and keep every other cell. -/
def clearActiveBufferRegion (numChannels : ℕ) (b : Buffer) (startSample numSamples : ℕ) :
    Buffer :=
  fun ch q =>
    if ch < numChannels ∧ startSample ≤ q ∧ q < startSample + numSamples then 0
    else b ch q

/-- The buffer pipeline of SynthAudioSource::getNextAudioBlock
(lines 183-196): clear the active region of the buffer handed in, then let
the synthesiser render the block over it.  The events argument stands for
the MIDI messages drained from the collector and merged from the keyboard
state, which do not depend on the audio buffer. -/
noncomputable def getNextAudioBlockBuffer (numChannels : ℕ) (events : List MidiEvent)
    (voices : List SineWaveVoice) (sounds : List SineWaveSound) (b : Buffer)
    (startSample numSamples : ℕ) : List SineWaveVoice × Buffer :=
  synthRenderBlock numChannels sounds events voices
    (clearActiveBufferRegion numChannels b startSample numSamples)
    startSample (startSample + numSamples)

/-- Modelled from the spec: juce::MidiMessageCollector::removeNextBlockOfMessages,
which is not part of the repository: atomically drain exactly the buffered
events whose timestamps fall within the upcoming block of the given number
of samples, returning the drained events and the remaining pending ones. -/
def removeNextBlockOfMessages (pending : List MidiEvent) (numSamples : ℕ) :
    List MidiEvent × List MidiEvent :=
  (pending.filter fun e => e.ts < numSamples,
   pending.filter fun e => numSamples ≤ e.ts)

/-- The MIDI-drain call of SynthAudioSource::getNextAudioBlock
(lines 188-189): the source passes bufferToFill.startSample - not
bufferToFill.numSamples - as the sample-count argument of
removeNextBlockOfMessages, so the drained window is the block's start
offset rather than its length. -/
def getNextAudioBlockDrainedEvents (pending : List MidiEvent)
    (startSample _numSamples : ℕ) : List MidiEvent :=
  (removeNextBlockOfMessages pending startSample).1

end SynthMidi

namespace SynthMidi

/-- Unfolding equation for one iteration of the tail-off loop. -/
theorem tailLoop_succ (numChannels : ℕ) (v : SineWaveVoice) (b : Buffer) (p n : ℕ) :
    tailLoop numChannels v b p (n + 1)
      = if (tailStep v).tailOff ≤ 0.005
        then (freeVoice (tailStep v),
              addToAllChannels numChannels b p (Real.sin v.currentAngle * v.level * v.tailOff))
        else tailLoop numChannels (tailStep v)
              (addToAllChannels numChannels b p (Real.sin v.currentAngle * v.level * v.tailOff))
              (p + 1) n := rfl

/-- Closed-form characterization of the tail-off loop: some number k of
samples is rendered (bounded by the budget n); rendered sample j carries
sin(angle + j * angleDelta) * level * (tailOff * decay ^ j) added to every
channel below the channel count; every other buffer cell is untouched; the
release threshold is not crossed before step k; and the final voice state
is either the freed voice (early exit on tailOff * decay ^ k ≤ 0.005) or
the k = n advanced voice when the budget ran out first. -/
theorem tailLoop_char (numChannels : ℕ) (n : ℕ) :
    ∀ (v : SineWaveVoice) (b : Buffer) (p : ℕ),
    ∃ k, k ≤ n ∧
      (∀ j, j < k → ∀ ch, ch < numChannels →
        (tailLoop numChannels v b p n).2 ch (p + j)
          = b ch (p + j)
            + Real.sin (v.currentAngle + (j : ℝ) * v.angleDelta) * v.level
              * (v.tailOff * v.decay ^ j)) ∧
      (∀ ch q, q < p ∨ p + k ≤ q → (tailLoop numChannels v b p n).2 ch q = b ch q) ∧
      (∀ ch q, numChannels ≤ ch → (tailLoop numChannels v b p n).2 ch q = b ch q) ∧
      (∀ i, 0 < i → i < k → 0.005 < v.tailOff * v.decay ^ i) ∧
      ((0 < k ∧ v.tailOff * v.decay ^ k ≤ 0.005 ∧
          (tailLoop numChannels v b p n).1 = freeVoice (tailAdvance v k)) ∨
       (k = n ∧ (n = 0 ∨ 0.005 < v.tailOff * v.decay ^ n) ∧
          (tailLoop numChannels v b p n).1 = tailAdvance v n)) := by
  induction n with
  | zero =>
    intro v b p
    refine ⟨0, le_refl 0, ?_, ?_, ?_, ?_, Or.inr ⟨rfl, Or.inl rfl, ?_⟩⟩
    · intro j hj; omega
    · intro ch q _; rfl
    · intro ch q _; rfl
    · intro i hi hik; omega
    · show v = tailAdvance v 0
      ext <;> simp [tailAdvance]
  | succ n ih =>
    intro v b p
    rw [tailLoop_succ]
    by_cases hexit : (tailStep v).tailOff ≤ 0.005
    · rw [if_pos hexit]
      simp only [tailStep] at hexit
      refine ⟨1, by omega, ?_, ?_, ?_, ?_, Or.inl ⟨one_pos, ?_, ?_⟩⟩
      · intro j hj ch hch
        have hj0 : j = 0 := by omega
        subst hj0
        simp [addToAllChannels, hch]
      · intro ch q hq
        have hqp : q ≠ p := by omega
        simp only [addToAllChannels]
        rw [if_neg]
        rintro ⟨-, rfl⟩
        exact hqp rfl
      · intro ch q hch
        simp only [addToAllChannels]
        rw [if_neg]
        rintro ⟨h1, -⟩
        omega
      · intro i hi0 hik; omega
      · simpa using hexit
      · show freeVoice (tailStep v) = freeVoice (tailAdvance v 1)
        ext <;> simp [freeVoice, tailStep, tailAdvance]
    · rw [if_neg hexit]
      simp only [tailStep, not_le] at hexit
      obtain ⟨k', hk'le, hsamp, hout, hhigh, hnoexit, hterm⟩ :=
        ih (tailStep v)
          (addToAllChannels numChannels b p (Real.sin v.currentAngle * v.level * v.tailOff))
          (p + 1)
      refine ⟨k' + 1, by omega, ?_, ?_, ?_, ?_, ?_⟩
      · intro j hj ch hch
        match j with
        | 0 =>
          have h1 : (tailLoop numChannels (tailStep v)
              (addToAllChannels numChannels b p
                (Real.sin v.currentAngle * v.level * v.tailOff)) (p + 1) n).2 ch p
              = addToAllChannels numChannels b p
                (Real.sin v.currentAngle * v.level * v.tailOff) ch p := by
            exact hout ch p (Or.inl (by omega))
          simpa [addToAllChannels, hch] using h1
        | Nat.succ j' =>
          have hj' : j' < k' := by omega
          have e : p + (j' + 1) = (p + 1) + j' := by omega
          rw [e]
          rw [hsamp j' hj' ch hch]
          have hb : addToAllChannels numChannels b p
              (Real.sin v.currentAngle * v.level * v.tailOff) ch (p + 1 + j')
              = b ch (p + 1 + j') := by
            simp only [addToAllChannels]
            rw [if_neg]
            rintro ⟨-, h⟩
            omega
          rw [hb]
          have ha : (tailStep v).currentAngle + (j' : ℝ) * (tailStep v).angleDelta
              = v.currentAngle + ((j' + 1 : ℕ) : ℝ) * v.angleDelta := by
            simp only [tailStep]
            push_cast
            ring
          have hm : (tailStep v).tailOff * (tailStep v).decay ^ j'
              = v.tailOff * v.decay ^ (j' + 1) := by
            simp only [tailStep]
            ring
          have hl : (tailStep v).level = v.level := rfl
          rw [ha, hm, hl]
      · intro ch q hq
        have h1 : (tailLoop numChannels (tailStep v)
            (addToAllChannels numChannels b p
              (Real.sin v.currentAngle * v.level * v.tailOff)) (p + 1) n).2 ch q
            = addToAllChannels numChannels b p
              (Real.sin v.currentAngle * v.level * v.tailOff) ch q := by
          apply hout
          omega
        rw [h1]
        simp only [addToAllChannels]
        rw [if_neg]
        rintro ⟨-, rfl⟩
        omega
      · intro ch q hch
        rw [hhigh ch q hch]
        simp only [addToAllChannels]
        rw [if_neg]
        rintro ⟨h1, -⟩
        omega
      · intro i hi0 hik
        match i with
        | Nat.succ i' =>
          have hm : v.tailOff * v.decay ^ (i' + 1)
              = (tailStep v).tailOff * (tailStep v).decay ^ i' := by
            simp only [tailStep]
            ring
          rw [hm]
          match i' with
          | 0 => simpa [tailStep] using hexit
          | Nat.succ i'' => exact hnoexit (i'' + 1) (by omega) (by omega)
      · rcases hterm with ⟨hk'pos, hle, heq⟩ | ⟨hkn, hdisj, heq⟩
        · refine Or.inl ⟨by omega, ?_, ?_⟩
          · have hm : v.tailOff * v.decay ^ (k' + 1)
                = (tailStep v).tailOff * (tailStep v).decay ^ k' := by
              simp only [tailStep]; ring
            rw [hm]; exact hle
          · rw [heq]
            ext <;> simp [freeVoice, tailStep, tailAdvance] <;> ring
        · refine Or.inr ⟨by omega, ?_, ?_⟩
          · refine Or.inr ?_
            match n, hkn with
            | 0, _ => simpa using hexit
            | Nat.succ m, _ =>
              rcases hdisj with h0 | hlt
              · omega
              · have hm : v.tailOff * v.decay ^ (m + 1 + 1)
                    = (tailStep v).tailOff * (tailStep v).decay ^ (m + 1) := by
                  simp only [tailStep]; ring
                rw [hm]; exact hlt
          · rw [heq]
            ext <;> simp [tailStep, tailAdvance] <;> ring

/-- C4. During release (tailOff > 0, angleDelta not 0),
SineWaveVoice::renderNextBlock adds sin(phase) * level * tailOff
identically to every channel for each successive sample, advancing the
phase and decaying the tail each time, and as soon as tailOff falls to or
below 0.005 the voice is freed (note unbound, angleDelta zeroed) and
rendering stops early, leaving all remaining cells of the call untouched. -/
theorem renderNextBlock_tailoff_outcome (numChannels : ℕ) (v : SineWaveVoice) (b : Buffer)
    (p n : ℕ) (hδ : v.angleDelta ≠ 0) (ht : 0 < v.tailOff) :
    TailRenderOutcome numChannels v b p n := by
  have heq : renderNextBlock numChannels v b p n = tailLoop numChannels v b p n := by
    simp only [renderNextBlock]
    rw [if_pos hδ, if_pos ht]
  unfold TailRenderOutcome
  rw [heq]
  exact tailLoop_char numChannels n v b p

/-- Witness for renderNextBlock_tailoff_outcome: a concrete releasing voice
rendered for three samples into the zero buffer over two channels. -/
theorem renderNextBlock_tailoff_outcome_witness :
    TailRenderOutcome 2
      ({ currentAngle := 0, angleDelta := 1, level := 1, tailOff := 1, decay := 1/2,
         sampleRate := 44100, currentNote := some 60 } : SineWaveVoice)
      zeroBuffer 0 3 :=
  renderNextBlock_tailoff_outcome 2 _ zeroBuffer 0 3 (by norm_num) (by norm_num)

/-- An idle voice (angleDelta = 0) renders nothing and is left unchanged
by SineWaveVoice::renderNextBlock (the guard at line 106). -/
theorem renderNextBlock_idle (numChannels : ℕ) (v : SineWaveVoice) (b : Buffer) (p n : ℕ)
    (h : v.angleDelta = 0) : renderNextBlock numChannels v b p n = (v, b) := by
  simp [renderNextBlock, h]

/-- Voice-state evolution of one releasing render call: either the voice
exits freed (angleDelta 0) or it survives the whole budget with its tail
decayed once per sample and still above the threshold. -/
theorem renderNextBlock_voice_cases (numChannels : ℕ) (v : SineWaveVoice) (b : Buffer)
    (p n : ℕ) (hδ : v.angleDelta ≠ 0) (ht : 0 < v.tailOff) :
    (renderNextBlock numChannels v b p n).1.angleDelta = 0 ∨
    ((renderNextBlock numChannels v b p n).1 = tailAdvance v n ∧
      (n = 0 ∨ 0.005 < v.tailOff * v.decay ^ n)) := by
  have heq : renderNextBlock numChannels v b p n = tailLoop numChannels v b p n := by
    simp only [renderNextBlock]
    rw [if_pos hδ, if_pos ht]
  rw [heq]
  obtain ⟨k, -, -, -, -, -, hterm⟩ := tailLoop_char numChannels n v b p
  rcases hterm with ⟨-, -, hfree⟩ | ⟨-, hdisj, hadv⟩
  · rw [hfree]
    exact Or.inl rfl
  · exact Or.inr ⟨hadv, hdisj⟩

/-- An idle voice stays idle across any sequence of render callbacks. -/
theorem renderCalls_idle (calls : List RenderCall) :
    ∀ (v : SineWaveVoice), v.angleDelta = 0 → (renderCalls v calls).angleDelta = 0 := by
  induction calls with
  | nil => intro v h; exact h
  | cons c rest ih =>
    intro v h
    show (renderCalls
      (renderNextBlock c.numChannels v c.buf c.startSample c.numSamples).1 rest).angleDelta = 0
    rw [renderNextBlock_idle _ _ _ _ _ h]
    exact ih v h

/-- Invariant of a releasing voice across render callbacks: it is idle, or
its tail has decayed exactly once per budgeted sample and (once at least
one sample was rendered) is still above the 0.005 threshold. -/
theorem renderCalls_tailoff_invariant (calls : List RenderCall) :
    ∀ (v : SineWaveVoice), 0 < v.decay → v.angleDelta ≠ 0 → 0 < v.tailOff →
    (renderCalls v calls).angleDelta = 0 ∨
    ((renderCalls v calls).angleDelta = v.angleDelta ∧
     (renderCalls v calls).decay = v.decay ∧
     (renderCalls v calls).tailOff = v.tailOff * v.decay ^ callTotal calls ∧
     (callTotal calls = 0 ∨ 0.005 < (renderCalls v calls).tailOff)) := by
  induction calls with
  | nil =>
    intro v hd hδ ht
    exact Or.inr ⟨rfl, rfl, by simp [renderCalls, callTotal], Or.inl rfl⟩
  | cons c rest ih =>
    intro v hd hδ ht
    simp only [renderCalls]
    rcases renderNextBlock_voice_cases c.numChannels v c.buf c.startSample c.numSamples hδ ht
      with h0 | ⟨hadv, hdisj⟩
    · exact Or.inl (renderCalls_idle rest _ h0)
    · rw [hadv]
      have hd' : 0 < (tailAdvance v c.numSamples).decay := by
        simpa [tailAdvance] using hd
      have hδ' : (tailAdvance v c.numSamples).angleDelta ≠ 0 := by
        simpa [tailAdvance] using hδ
      have ht' : 0 < (tailAdvance v c.numSamples).tailOff := by
        simp only [tailAdvance]
        exact mul_pos ht (pow_pos hd _)
      rcases ih (tailAdvance v c.numSamples) hd' hδ' ht' with h0 | ⟨hδe, hde, hte, hdisj'⟩
      · exact Or.inl h0
      · refine Or.inr ⟨?_, ?_, ?_, ?_⟩
        · rw [hδe]; simp [tailAdvance]
        · rw [hde]; simp [tailAdvance]
        · rw [hte]
          simp only [tailAdvance, callTotal, List.map_cons, List.sum_cons]
          rw [pow_add]
          ring
        · by_cases hct : callTotal (c :: rest) = 0
          · exact Or.inl hct
          · refine Or.inr ?_
            rcases hdisj' with hr0 | hgt
            · rw [hte, hr0]
              simp only [tailAdvance, pow_zero, mul_one]
              have hcn : c.numSamples ≠ 0 := by
                simp only [callTotal, List.map_cons, List.sum_cons] at hct
                simp only [callTotal] at hr0
                omega
              rcases hdisj with h00 | hgt2
              · exact absurd h00 hcn
              · exact hgt2
            · exact hgt

/-- For a decay coefficient in (0,1), raising it to the
ceil(log 0.005 / log decay) power lands at or below the 0.005 release
threshold. -/
theorem pow_ceil_log_le (d : ℝ) (hd0 : 0 < d) (hd1 : d < 1) :
    d ^ ⌈Real.log 0.005 / Real.log d⌉₊ ≤ 0.005 := by
  have hld : Real.log d < 0 := Real.log_neg hd0 hd1
  have h1 : Real.log 0.005 / Real.log d ≤ (⌈Real.log 0.005 / Real.log d⌉₊ : ℝ) :=
    Nat.le_ceil _
  have h2 : (⌈Real.log 0.005 / Real.log d⌉₊ : ℝ) * Real.log d
      ≤ Real.log 0.005 / Real.log d * Real.log d :=
    mul_le_mul_of_nonpos_right h1 hld.le
  rw [div_mul_cancel₀ _ hld.ne] at h2
  have h3 : Real.log (d ^ ⌈Real.log 0.005 / Real.log d⌉₊) ≤ Real.log 0.005 := by
    rw [Real.log_pow]
    exact h2
  have h4 : (0:ℝ) < d ^ ⌈Real.log 0.005 / Real.log d⌉₊ := pow_pos hd0 _
  calc d ^ ⌈Real.log 0.005 / Real.log d⌉₊
      = Real.exp (Real.log (d ^ ⌈Real.log 0.005 / Real.log d⌉₊)) := (Real.exp_log h4).symm
    _ ≤ Real.exp (Real.log 0.005) := Real.exp_le_exp.mpr h3
    _ = 0.005 := Real.exp_log (by norm_num)

/-- The release-length bound is at least one sample. -/
theorem ceil_log_pos (d : ℝ) (hd0 : 0 < d) (hd1 : d < 1) :
    0 < ⌈Real.log 0.005 / Real.log d⌉₊ := by
  have hld : Real.log d < 0 := Real.log_neg hd0 hd1
  have hl5 : Real.log (0.005:ℝ) < 0 := Real.log_neg (by norm_num) (by norm_num)
  exact Nat.ceil_pos.mpr (div_pos_of_neg_of_neg hl5 hld)

/-- C5. A voice entering tail-off (tailOff set to 1) with decay in (0,1)
reaches the idle state within ceil(log 0.005 / log decay) rendered samples,
counted across any sequence of successive renderNextBlock calls whose
budgets add up to at least that bound. -/
theorem tailoff_reaches_idle (v : SineWaveVoice)
    (hd0 : 0 < v.decay) (hd1 : v.decay < 1)
    (ht : v.tailOff = 1) (hδ : v.angleDelta ≠ 0)
    (calls : List RenderCall)
    (hN : ⌈Real.log 0.005 / Real.log v.decay⌉₊ ≤ callTotal calls) :
    (renderCalls v calls).angleDelta = 0 := by
  rcases renderCalls_tailoff_invariant calls v hd0 hδ (by rw [ht]; norm_num)
    with h0 | ⟨-, -, hte, hdisj⟩
  · exact h0
  · exfalso
    have hNpos := ceil_log_pos v.decay hd0 hd1
    have htot : callTotal calls ≠ 0 := by omega
    rcases hdisj with h | hgt
    · exact htot h
    · have hle : v.decay ^ callTotal calls ≤ v.decay ^ ⌈Real.log 0.005 / Real.log v.decay⌉₊ :=
        pow_le_pow_of_le_one hd0.le hd1.le hN
      have hthr := pow_ceil_log_le v.decay hd0 hd1
      rw [hte, ht, one_mul] at hgt
      linarith

/-- The release-length bound for decay 1/2 is at most 8 samples. -/
theorem ceil_log_half_le_eight : ⌈Real.log 0.005 / Real.log ((1:ℝ)/2)⌉₊ ≤ 8 := by
  have hld : Real.log ((1:ℝ)/2) < 0 := Real.log_neg (by norm_num) (by norm_num)
  rw [Nat.ceil_le, div_le_iff_of_neg hld]
  have h1 : ((1:ℝ)/2) ^ (8:ℕ) ≤ 0.005 := by norm_num
  have h2 : Real.log (((1:ℝ)/2) ^ (8:ℕ)) ≤ Real.log 0.005 :=
    Real.log_le_log (by norm_num) h1
  rw [Real.log_pow] at h2
  push_cast at h2 ⊢
  linarith

/-- Witness for tailoff_reaches_idle: a concrete voice with decay 1/2 and
tail entered, rendered for 8 samples in one call, is idle. -/
theorem tailoff_reaches_idle_witness :
    (renderCalls
      ({ currentAngle := 0, angleDelta := 1, level := 1, tailOff := 1, decay := 1/2,
         sampleRate := 44100, currentNote := some 60 } : SineWaveVoice)
      [⟨1, zeroBuffer, 0, 8⟩]).angleDelta = 0 :=
  tailoff_reaches_idle _ (by norm_num) (by norm_num) rfl (by norm_num) _
    (le_trans ceil_log_half_le_eight (by norm_num [callTotal]))

/-- The per-sample state update of the tail-off loop iterated j times
leaves level and decay unchanged and multiplies tailOff by decay ^ j. -/
theorem tailStep_iterate (v : SineWaveVoice) (j : ℕ) :
    (tailStep^[j] v).level = v.level ∧
    (tailStep^[j] v).tailOff = v.tailOff * v.decay ^ j ∧
    (tailStep^[j] v).decay = v.decay := by
  induction j with
  | zero => exact ⟨rfl, by simp, rfl⟩
  | succ j ih =>
    rw [Function.iterate_succ_apply']
    obtain ⟨h1, h2, h3⟩ := ih
    refine ⟨by simp [tailStep, h1], ?_, by simp [tailStep, h3]⟩
    simp only [tailStep]
    rw [h2, h3, pow_succ]
    ring

/-- C6. Once a voice is in tail-off, with decay in (0,1) exclusive, the
magnitude of the per-sample amplitude envelope level * tailOff is
non-increasing from each rendered sample (one tailStep of the tail-off
loop of renderNextBlock) to the next. -/
theorem tailoff_envelope_monotone (v : SineWaveVoice)
    (hd0 : 0 < v.decay) (hd1 : v.decay < 1) (j : ℕ) :
    |(tailStep^[j + 1] v).level * (tailStep^[j + 1] v).tailOff|
      ≤ |(tailStep^[j] v).level * (tailStep^[j] v).tailOff| := by
  obtain ⟨l1, t1, -⟩ := tailStep_iterate v (j + 1)
  obtain ⟨l0, t0, -⟩ := tailStep_iterate v j
  rw [l1, t1, l0, t0, pow_succ]
  rw [show v.level * (v.tailOff * (v.decay ^ j * v.decay))
      = v.level * (v.tailOff * v.decay ^ j) * v.decay by ring]
  rw [abs_mul]
  exact mul_le_of_le_one_right (abs_nonneg _) (by rw [abs_of_pos hd0]; exact hd1.le)

/-- Witness for tailoff_envelope_monotone at the freshly constructed voice
(decay 0.999) and the first rendered sample. -/
theorem tailoff_envelope_monotone_witness :
    |(tailStep^[1] mkSineWaveVoice).level * (tailStep^[1] mkSineWaveVoice).tailOff|
      ≤ |(tailStep^[0] mkSineWaveVoice).level * (tailStep^[0] mkSineWaveVoice).tailOff| :=
  tailoff_envelope_monotone mkSineWaveVoice
    (by norm_num [mkSineWaveVoice, memberInit]) (by norm_num [mkSineWaveVoice, memberInit]) 0

/-- The release-length bound for decay 0.999 is at most 8000 samples. -/
theorem ceil_log_0999_le : ⌈Real.log 0.005 / Real.log (0.999:ℝ)⌉₊ ≤ 8000 := by
  have hld : Real.log (0.999:ℝ) < 0 := Real.log_neg (by norm_num) (by norm_num)
  rw [Nat.ceil_le, div_le_iff_of_neg hld]
  have h1 : Real.log (0.999:ℝ) ≤ -0.001 := by
    have := Real.log_le_sub_one_of_pos (show (0:ℝ) < 0.999 by norm_num)
    linarith
  have hlog2 : Real.log (2:ℝ) ≤ 1 := by
    have := Real.log_le_sub_one_of_pos (show (0:ℝ) < 2 by norm_num)
    linarith
  have h200 : Real.log (200:ℝ) ≤ Real.log (256:ℝ) :=
    Real.log_le_log (by norm_num) (by norm_num)
  have h256 : Real.log (256:ℝ) = 8 * Real.log 2 := by
    rw [show (256:ℝ) = 2 ^ (8:ℕ) by norm_num, Real.log_pow]
    push_cast
    ring
  have h5 : Real.log (0.005:ℝ) = -Real.log 200 := by
    rw [show (0.005:ℝ) = (200:ℝ)⁻¹ by norm_num, Real.log_inv]
  push_cast
  linarith

/-- C9. The SineWaveVoice constructor initialises decay to 0.999,
overriding the 0.0 member default, so without any setDecay call a voice
that enters tail-off with a nonzero angleDelta is guaranteed to reach idle
within the (finite) ceil(log 0.005 / log 0.999) rendered-sample bound. -/
theorem ctor_decay_terminates :
    mkSineWaveVoice.decay = 0.999 ∧
    memberInit.decay = 0 ∧
    mkSineWaveVoice = { memberInit with decay := 0.999 } ∧
    (∀ (a : ℝ), a ≠ 0 → ∀ calls : List RenderCall,
      ⌈Real.log 0.005 / Real.log mkSineWaveVoice.decay⌉₊ ≤ callTotal calls →
      (renderCalls { mkSineWaveVoice with tailOff := 1, angleDelta := a } calls).angleDelta
        = 0) := by
  refine ⟨rfl, rfl, rfl, ?_⟩
  intro a ha calls hcalls
  apply tailoff_reaches_idle
  · show (0:ℝ) < 0.999
    norm_num
  · show (0.999:ℝ) < 1
    norm_num
  · rfl
  · exact ha
  · exact hcalls

/-- Witness for ctor_decay_terminates: the constructed voice, tail
entered with angleDelta 1, is idle after one 8000-sample render call. -/
theorem ctor_decay_terminates_witness :
    (renderCalls { mkSineWaveVoice with tailOff := 1, angleDelta := 1 }
      [⟨1, zeroBuffer, 0, 8000⟩]).angleDelta = 0 :=
  ctor_decay_terminates.2.2.2 1 (by norm_num) [⟨1, zeroBuffer, 0, 8000⟩]
    (le_trans ceil_log_0999_le (by norm_num [callTotal]))

/-- C2. SineWaveVoice::startNote, for every note number n (out-of-range
values included, nothing is validated) and velocity, resets the phase to 0,
sets the level to velocity * 0.15, clears the tail-off factor, and sets the
phase increment to 2 * pi * (440 * 2 ^ ((n - 69) / 12)) / sampleRate. -/
theorem startNote_resets_state (v : SineWaveVoice) (n : Int) (velocity : ℝ) :
    (startNote v n velocity).currentAngle = 0 ∧
    (startNote v n velocity).level = velocity * 0.15 ∧
    (startNote v n velocity).tailOff = 0 ∧
    (startNote v n velocity).angleDelta
      = 2 * Real.pi * (440 * (2 : ℝ) ^ (((n : ℝ) - 69) / 12)) / v.sampleRate := by
  refine ⟨rfl, rfl, rfl, ?_⟩
  show getMidiNoteInHertz n / v.sampleRate * 2 * Real.pi = _
  rw [getMidiNoteInHertz]
  ring

/-- C3. SineWaveVoice::stopNote: with allowTailOff = true it sets tailOff
to 1 when the voice is not already releasing and leaves the state unchanged
otherwise; with allowTailOff = false it unbinds the note and zeroes the
phase increment, so an already-idle voice stays idle. -/
theorem stopNote_cases (v : SineWaveVoice) :
    (v.tailOff = 0 → stopNote v true = { v with tailOff := 1 }) ∧
    (v.tailOff ≠ 0 → stopNote v true = v) ∧
    stopNote v false = { v with currentNote := none, angleDelta := 0 } ∧
    (v.angleDelta = 0 → v.currentNote = none →
      (stopNote v false).angleDelta = 0 ∧ (stopNote v false).currentNote = none) := by
  refine ⟨fun h => ?_, fun h => ?_, ?_, fun _ _ => ⟨rfl, rfl⟩⟩
  · simp only [stopNote, if_true, if_pos h]
  · simp only [stopNote, if_true, if_neg h]
  · rfl

/-- The tail-off loop writes additively: the final voice state does not
depend on the buffer, and the difference the loop adds at any cell does
not depend on the prior contents. -/
theorem tailLoop_buffer_delta (numChannels : ℕ) (n : ℕ) :
    ∀ (v : SineWaveVoice) (b1 b2 : Buffer) (p : ℕ),
      (tailLoop numChannels v b1 p n).1 = (tailLoop numChannels v b2 p n).1 ∧
      ∀ ch q, (tailLoop numChannels v b1 p n).2 ch q + b2 ch q
        = (tailLoop numChannels v b2 p n).2 ch q + b1 ch q := by
  induction n with
  | zero =>
    intro v b1 b2 p
    exact ⟨rfl, fun ch q => add_comm _ _⟩
  | succ n ih =>
    intro v b1 b2 p
    rw [tailLoop_succ, tailLoop_succ]
    by_cases hexit : (tailStep v).tailOff ≤ 0.005
    · rw [if_pos hexit, if_pos hexit]
      refine ⟨rfl, fun ch q => ?_⟩
      simp only [addToAllChannels]
      by_cases hc : ch < numChannels ∧ q = p
      · rw [if_pos hc, if_pos hc]; ring
      · rw [if_neg hc, if_neg hc]; ring
    · rw [if_neg hexit, if_neg hexit]
      obtain ⟨hv, hb⟩ := ih (tailStep v)
        (addToAllChannels numChannels b1 p (Real.sin v.currentAngle * v.level * v.tailOff))
        (addToAllChannels numChannels b2 p (Real.sin v.currentAngle * v.level * v.tailOff))
        (p + 1)
      refine ⟨hv, fun ch q => ?_⟩
      have haux : addToAllChannels numChannels b1 p
            (Real.sin v.currentAngle * v.level * v.tailOff) ch q + b2 ch q
          = addToAllChannels numChannels b2 p
            (Real.sin v.currentAngle * v.level * v.tailOff) ch q + b1 ch q := by
        simp only [addToAllChannels]
        by_cases hc : ch < numChannels ∧ q = p
        · rw [if_pos hc, if_pos hc]; ring
        · rw [if_neg hc, if_neg hc]; ring
      have h1 := hb ch q
      linarith

/-- Unfolding equation for one iteration of the sustain loop. -/
theorem sustainLoop_succ (numChannels : ℕ) (v : SineWaveVoice) (b : Buffer) (p n : ℕ) :
    sustainLoop numChannels v b p (n + 1)
      = sustainLoop numChannels { v with currentAngle := v.currentAngle + v.angleDelta }
          (addToAllChannels numChannels b p (Real.sin v.currentAngle * v.level))
          (p + 1) n := rfl

/-- The sustain loop writes additively, like the tail-off loop. -/
theorem sustainLoop_buffer_delta (numChannels : ℕ) (n : ℕ) :
    ∀ (v : SineWaveVoice) (b1 b2 : Buffer) (p : ℕ),
      (sustainLoop numChannels v b1 p n).1 = (sustainLoop numChannels v b2 p n).1 ∧
      ∀ ch q, (sustainLoop numChannels v b1 p n).2 ch q + b2 ch q
        = (sustainLoop numChannels v b2 p n).2 ch q + b1 ch q := by
  induction n with
  | zero =>
    intro v b1 b2 p
    exact ⟨rfl, fun ch q => add_comm _ _⟩
  | succ n ih =>
    intro v b1 b2 p
    rw [sustainLoop_succ, sustainLoop_succ]
    obtain ⟨hv, hb⟩ := ih { v with currentAngle := v.currentAngle + v.angleDelta }
      (addToAllChannels numChannels b1 p (Real.sin v.currentAngle * v.level))
      (addToAllChannels numChannels b2 p (Real.sin v.currentAngle * v.level))
      (p + 1)
    refine ⟨hv, fun ch q => ?_⟩
    have haux : addToAllChannels numChannels b1 p
          (Real.sin v.currentAngle * v.level) ch q + b2 ch q
        = addToAllChannels numChannels b2 p
          (Real.sin v.currentAngle * v.level) ch q + b1 ch q := by
      simp only [addToAllChannels]
      by_cases hc : ch < numChannels ∧ q = p
      · rw [if_pos hc, if_pos hc]; ring
      · rw [if_neg hc, if_neg hc]; ring
    have h1 := hb ch q
    linarith

/-- SineWaveVoice::renderNextBlock writes additively. -/
theorem renderNextBlock_buffer_delta (numChannels : ℕ) (v : SineWaveVoice)
    (b1 b2 : Buffer) (p n : ℕ) :
    (renderNextBlock numChannels v b1 p n).1 = (renderNextBlock numChannels v b2 p n).1 ∧
    ∀ ch q, (renderNextBlock numChannels v b1 p n).2 ch q + b2 ch q
      = (renderNextBlock numChannels v b2 p n).2 ch q + b1 ch q := by
  by_cases h1 : v.angleDelta ≠ 0
  · by_cases h2 : v.tailOff > 0
    · have heq : ∀ b : Buffer,
          renderNextBlock numChannels v b p n = tailLoop numChannels v b p n := by
        intro b
        simp only [renderNextBlock]
        rw [if_pos h1, if_pos h2]
      rw [heq b1, heq b2]
      exact tailLoop_buffer_delta numChannels n v b1 b2 p
    · have heq : ∀ b : Buffer,
          renderNextBlock numChannels v b p n = sustainLoop numChannels v b p n := by
        intro b
        simp only [renderNextBlock]
        rw [if_pos h1, if_neg h2]
      rw [heq b1, heq b2]
      exact sustainLoop_buffer_delta numChannels n v b1 b2 p
  · have heq : ∀ b : Buffer, renderNextBlock numChannels v b p n = (v, b) := by
      intro b
      simp only [renderNextBlock]
      rw [if_neg h1]
    rw [heq b1, heq b2]
    exact ⟨rfl, fun ch q => add_comm _ _⟩

/-- The channel loop adds the same value to every channel, preserving
channel uniformity. -/
theorem chUniform_addToAllChannels (numChannels : ℕ) (b : Buffer) (idx : ℕ) (val : ℝ)
    (h : ChUniform numChannels b) :
    ChUniform numChannels (addToAllChannels numChannels b idx val) := by
  intro ch1 h1 ch2 h2 q
  simp only [addToAllChannels]
  by_cases hq : q = idx
  · rw [if_pos ⟨h1, hq⟩, if_pos ⟨h2, hq⟩, h ch1 h1 ch2 h2 q]
  · rw [if_neg fun hc => hq hc.2, if_neg fun hc => hq hc.2]
    exact h ch1 h1 ch2 h2 q

/-- The tail-off loop preserves channel uniformity. -/
theorem chUniform_tailLoop (numChannels : ℕ) (n : ℕ) :
    ∀ (v : SineWaveVoice) (b : Buffer) (p : ℕ), ChUniform numChannels b →
      ChUniform numChannels (tailLoop numChannels v b p n).2 := by
  induction n with
  | zero => intro v b p h; exact h
  | succ n ih =>
    intro v b p h
    rw [tailLoop_succ]
    by_cases hexit : (tailStep v).tailOff ≤ 0.005
    · rw [if_pos hexit]
      exact chUniform_addToAllChannels numChannels b p _ h
    · rw [if_neg hexit]
      exact ih _ _ _ (chUniform_addToAllChannels numChannels b p _ h)

/-- The sustain loop preserves channel uniformity. -/
theorem chUniform_sustainLoop (numChannels : ℕ) (n : ℕ) :
    ∀ (v : SineWaveVoice) (b : Buffer) (p : ℕ), ChUniform numChannels b →
      ChUniform numChannels (sustainLoop numChannels v b p n).2 := by
  induction n with
  | zero => intro v b p h; exact h
  | succ n ih =>
    intro v b p h
    exact ih _ _ _ (chUniform_addToAllChannels numChannels b p _ h)

/-- Voice rendering preserves channel uniformity. -/
theorem chUniform_renderNextBlock (numChannels : ℕ) (v : SineWaveVoice) (b : Buffer)
    (p n : ℕ) (h : ChUniform numChannels b) :
    ChUniform numChannels (renderNextBlock numChannels v b p n).2 := by
  simp only [renderNextBlock]
  by_cases h1 : v.angleDelta ≠ 0
  · rw [if_pos h1]
    by_cases h2 : v.tailOff > 0
    · rw [if_pos h2]; exact chUniform_tailLoop numChannels n v b p h
    · rw [if_neg h2]; exact chUniform_sustainLoop numChannels n v b p h
  · rw [if_neg h1]; exact h

/-- C7. Voice rendering is additive superposition: rendering v1 then v2
into a shared buffer yields, at every cell, the prior value plus each
voice's independently-computed contribution; each contribution is the
identical mono value on every channel below the channel count; and a voice
with angleDelta 0 (idle) leaves the buffer - and itself - untouched. -/
theorem render_superposition (numChannels : ℕ) (v1 v2 : SineWaveVoice) (b : Buffer)
    (p n : ℕ) :
    (∀ ch q,
      (renderNextBlock numChannels v2 ((renderNextBlock numChannels v1 b p n).2) p n).2 ch q
        = b ch q + voiceContribution numChannels v1 p n ch q
            + voiceContribution numChannels v2 p n ch q) ∧
    (∀ ch1, ch1 < numChannels → ∀ ch2, ch2 < numChannels → ∀ q,
      voiceContribution numChannels v1 p n ch1 q
        = voiceContribution numChannels v1 p n ch2 q) ∧
    renderNextBlock numChannels { v1 with angleDelta := 0 } b p n
      = ({ v1 with angleDelta := 0 }, b) := by
  refine ⟨?_, ?_, ?_⟩
  · intro ch q
    have h1 := (renderNextBlock_buffer_delta numChannels v1 b zeroBuffer p n).2 ch q
    have h2 := (renderNextBlock_buffer_delta numChannels v2
      ((renderNextBlock numChannels v1 b p n).2) zeroBuffer p n).2 ch q
    simp only [voiceContribution, zeroBuffer] at h1 h2 ⊢
    linarith
  · intro ch1 h1 ch2 h2 q
    exact chUniform_renderNextBlock numChannels v1 zeroBuffer p n
      (fun _ _ _ _ _ => rfl) ch1 h1 ch2 h2 q
  · exact renderNextBlock_idle numChannels _ b p n rfl

/-- Witness for render_superposition: two concrete one-channel voices on
notes 60 and 67, one sample, zero prior buffer; the channel hypotheses are
discharged at channel 0. -/
theorem render_superposition_witness :
    (0:ℕ) < 1 ∧
    ((renderNextBlock 1
        ({ currentAngle := 0, angleDelta := 2, level := 1, tailOff := 0, decay := 0.999,
           sampleRate := 44100, currentNote := some 67 } : SineWaveVoice)
        ((renderNextBlock 1
          ({ currentAngle := 0, angleDelta := 1, level := 1, tailOff := 0, decay := 0.999,
             sampleRate := 44100, currentNote := some 60 } : SineWaveVoice)
          zeroBuffer 0 1).2) 0 1).2 0 0
      = zeroBuffer 0 0
          + voiceContribution 1
            ({ currentAngle := 0, angleDelta := 1, level := 1, tailOff := 0, decay := 0.999,
               sampleRate := 44100, currentNote := some 60 } : SineWaveVoice) 0 1 0 0
          + voiceContribution 1
            ({ currentAngle := 0, angleDelta := 2, level := 1, tailOff := 0, decay := 0.999,
               sampleRate := 44100, currentNote := some 67 } : SineWaveVoice) 0 1 0 0) ∧
    voiceContribution 1
        ({ currentAngle := 0, angleDelta := 1, level := 1, tailOff := 0, decay := 0.999,
           sampleRate := 44100, currentNote := some 60 } : SineWaveVoice) 0 1 0 0
      = voiceContribution 1
        ({ currentAngle := 0, angleDelta := 1, level := 1, tailOff := 0, decay := 0.999,
           sampleRate := 44100, currentNote := some 60 } : SineWaveVoice) 0 1 0 0 :=
  ⟨by decide,
   (render_superposition 1 _ _ zeroBuffer 0 1).1 0 0,
   (render_superposition 1 _
     ({ currentAngle := 0, angleDelta := 2, level := 1, tailOff := 0, decay := 0.999,
        sampleRate := 44100, currentNote := some 67 } : SineWaveVoice)
     zeroBuffer 0 1).2.1 0 (by decide) 0 (by decide) 0⟩

/-- Note-on matching never changes the pool size. -/
theorem synthNoteOn_length (sounds : List SineWaveSound) (note : Int) (velocity : ℝ) :
    ∀ voices : List SineWaveVoice,
      (synthNoteOn sounds note velocity voices).length = voices.length := by
  intro voices
  induction voices with
  | nil => rfl
  | cons v rest ih =>
    simp only [synthNoteOn]
    by_cases h : v.currentNote = none ∧ (sounds.any fun s => s.appliesToNote note) = true
    · rw [if_pos h]
      simp
    · rw [if_neg h]
      simp [ih]

/-- A note-on that finds no idle voice accepted by a sound descriptor
leaves the pool exactly as it was. -/
theorem synthNoteOn_drop (sounds : List SineWaveSound) (note : Int) (velocity : ℝ) :
    ∀ voices : List SineWaveVoice,
      (∀ v ∈ voices,
        ¬(v.currentNote = none ∧ (sounds.any fun s => s.appliesToNote note) = true)) →
      synthNoteOn sounds note velocity voices = voices := by
  intro voices
  induction voices with
  | nil => intro _; rfl
  | cons v rest ih =>
    intro h
    simp only [synthNoteOn]
    rw [if_neg (h v (List.mem_cons_self v rest)),
      ih fun u hu => h u (List.mem_cons_of_mem v hu)]

/-- Folding note-ons over the pool never changes the pool size. -/
theorem foldl_noteOn_length (noteOns : List (Int × ℝ)) :
    ∀ voices : List SineWaveVoice,
      (noteOns.foldl (fun vs e => synthNoteOn initialSounds e.1 e.2 vs) voices).length
        = voices.length := by
  induction noteOns with
  | nil => intro voices; rfl
  | cons e rest ih =>
    intro voices
    rw [List.foldl_cons, ih, synthNoteOn_length]

/-- C8. The pool is constructed with exactly 4 voices and 1 universal
sound descriptor; note-on handling keeps the pool size fixed, so any
sequence of note-on events leaves at most 4 simultaneously active voices;
and a note-on arriving when no eligible idle voice exists returns the pool
unchanged - neither queued nor stealing an active voice. -/
theorem voicePool_fixed_and_drops :
    initialVoices.length = 4 ∧
    initialSounds.length = 1 ∧
    (∀ (sounds : List SineWaveSound) (note : Int) (velocity : ℝ)
        (voices : List SineWaveVoice),
      (synthNoteOn sounds note velocity voices).length = voices.length) ∧
    (∀ noteOns : List (Int × ℝ),
      activeVoiceCount
        (noteOns.foldl (fun vs e => synthNoteOn initialSounds e.1 e.2 vs) initialVoices)
        ≤ 4) ∧
    (∀ (sounds : List SineWaveSound) (note : Int) (velocity : ℝ)
        (voices : List SineWaveVoice),
      (∀ v ∈ voices,
        ¬(v.currentNote = none ∧ (sounds.any fun s => s.appliesToNote note) = true)) →
      synthNoteOn sounds note velocity voices = voices) := by
  refine ⟨rfl, rfl, ?_, ?_, ?_⟩
  · intro sounds note velocity voices
    exact synthNoteOn_length sounds note velocity voices
  · intro noteOns
    have hlen := foldl_noteOn_length noteOns initialVoices
    have hfil := List.length_filter_le (fun v => v.currentNote.isSome)
      (noteOns.foldl (fun vs e => synthNoteOn initialSounds e.1 e.2 vs) initialVoices)
    have h4 : initialVoices.length = 4 := by simp [initialVoices]
    simp only [activeVoiceCount]
    omega
  · intro sounds note velocity voices h
    exact synthNoteOn_drop sounds note velocity voices h

/-- Witness for voicePool_fixed_and_drops: a one-voice pool whose only
voice is busy on note 60 drops a note-on for note 62 unchanged. -/
theorem voicePool_fixed_and_drops_witness :
    synthNoteOn initialSounds 62 1 [{ mkSineWaveVoice with currentNote := some 60 }]
      = [{ mkSineWaveVoice with currentNote := some 60 }] :=
  voicePool_fixed_and_drops.2.2.2.2 initialSounds 62 1 _
    (by
      intro v hv
      rw [List.mem_singleton] at hv
      subst hv
      rintro ⟨h1, -⟩
      simp at h1)

/-- Rendering the whole pool writes additively: the final voice states do
not depend on the buffer, and neither does the difference added at any
cell. -/
theorem renderVoices_buffer_delta (numChannels : ℕ) :
    ∀ (voices : List SineWaveVoice) (b1 b2 : Buffer) (p n : ℕ),
      (renderVoices numChannels voices b1 p n).1
        = (renderVoices numChannels voices b2 p n).1 ∧
      ∀ ch q, (renderVoices numChannels voices b1 p n).2 ch q + b2 ch q
        = (renderVoices numChannels voices b2 p n).2 ch q + b1 ch q := by
  intro voices
  induction voices with
  | nil =>
    intro b1 b2 p n
    exact ⟨rfl, fun ch q => add_comm _ _⟩
  | cons v rest ih =>
    intro b1 b2 p n
    simp only [renderVoices]
    obtain ⟨hv, hb⟩ := renderNextBlock_buffer_delta numChannels v b1 b2 p n
    obtain ⟨hv2, hb2⟩ := ih (renderNextBlock numChannels v b1 p n).2
      (renderNextBlock numChannels v b2 p n).2 p n
    refine ⟨by rw [hv, hv2], fun ch q => ?_⟩
    have h1 := hb ch q
    have h2 := hb2 ch q
    linarith

/-- The synthesiser block render writes additively: the final voice states
do not depend on the buffer, and neither does the difference added at any
cell. -/
theorem synthRenderBlock_buffer_delta (numChannels : ℕ) (sounds : List SineWaveSound) :
    ∀ (events : List MidiEvent) (voices : List SineWaveVoice) (b1 b2 : Buffer)
      (pos endPos : ℕ),
      (synthRenderBlock numChannels sounds events voices b1 pos endPos).1
        = (synthRenderBlock numChannels sounds events voices b2 pos endPos).1 ∧
      ∀ ch q,
        (synthRenderBlock numChannels sounds events voices b1 pos endPos).2 ch q + b2 ch q
          = (synthRenderBlock numChannels sounds events voices b2 pos endPos).2 ch q
            + b1 ch q := by
  intro events
  induction events with
  | nil =>
    intro voices b1 b2 pos endPos
    simp only [synthRenderBlock]
    exact renderVoices_buffer_delta numChannels voices b1 b2 pos (endPos - pos)
  | cons e rest ih =>
    intro voices b1 b2 pos endPos
    simp only [synthRenderBlock]
    obtain ⟨hv, hb⟩ := renderVoices_buffer_delta numChannels voices b1 b2 pos
      (min (max e.ts pos) endPos - pos)
    rw [hv]
    obtain ⟨hv2, hb2⟩ := ih
      (handleMidiEvent sounds e
        (renderVoices numChannels voices b2 pos (min (max e.ts pos) endPos - pos)).1)
      (renderVoices numChannels voices b1 pos (min (max e.ts pos) endPos - pos)).2
      (renderVoices numChannels voices b2 pos (min (max e.ts pos) endPos - pos)).2
      (min (max e.ts pos) endPos) endPos
    refine ⟨hv2, fun ch q => ?_⟩
    have h1 := hb ch q
    have h2 := hb2 ch q
    linarith

/-- C10. SynthAudioSource::getNextAudioBlock clears the active buffer
region before rendering, so two invocations from identical events (the
collector and keyboard state yield the same messages) and identical voice
states but arbitrary different prior buffer contents produce identical
voice states and identical output samples across the whole active
region. -/
theorem getNextAudioBlock_prior_contents_irrelevant (numChannels : ℕ)
    (events : List MidiEvent) (voices : List SineWaveVoice) (sounds : List SineWaveSound)
    (b1 b2 : Buffer) (startSample numSamples : ℕ) :
    (getNextAudioBlockBuffer numChannels events voices sounds b1 startSample numSamples).1
      = (getNextAudioBlockBuffer numChannels events voices sounds b2
          startSample numSamples).1 ∧
    ∀ ch q, ch < numChannels → startSample ≤ q → q < startSample + numSamples →
      (getNextAudioBlockBuffer numChannels events voices sounds b1
        startSample numSamples).2 ch q
        = (getNextAudioBlockBuffer numChannels events voices sounds b2
            startSample numSamples).2 ch q := by
  simp only [getNextAudioBlockBuffer]
  obtain ⟨hv, hb⟩ := synthRenderBlock_buffer_delta numChannels sounds events voices
    (clearActiveBufferRegion numChannels b1 startSample numSamples)
    (clearActiveBufferRegion numChannels b2 startSample numSamples)
    startSample (startSample + numSamples)
  refine ⟨hv, fun ch q h1 h2 h3 => ?_⟩
  have h := hb ch q
  have e1 : clearActiveBufferRegion numChannels b1 startSample numSamples ch q = 0 := by
    simp only [clearActiveBufferRegion]
    rw [if_pos ⟨h1, h2, h3⟩]
  have e2 : clearActiveBufferRegion numChannels b2 startSample numSamples ch q = 0 := by
    simp only [clearActiveBufferRegion]
    rw [if_pos ⟨h1, h2, h3⟩]
  rw [e1, e2] at h
  linarith

/-- Witness for getNextAudioBlock_prior_contents_irrelevant: prior buffers
constantly 1 and constantly 2 give the same voice states and the same
active-region sample. -/
theorem getNextAudioBlock_prior_contents_irrelevant_witness :
    (getNextAudioBlockBuffer 1 [] initialVoices initialSounds (fun _ _ => 1) 0 1).1
      = (getNextAudioBlockBuffer 1 [] initialVoices initialSounds (fun _ _ => 2) 0 1).1 ∧
    (getNextAudioBlockBuffer 1 [] initialVoices initialSounds (fun _ _ => 1) 0 1).2 0 0
      = (getNextAudioBlockBuffer 1 [] initialVoices initialSounds
          (fun _ _ => 2) 0 1).2 0 0 :=
  ⟨(getNextAudioBlock_prior_contents_irrelevant 1 [] initialVoices initialSounds
      (fun _ _ => 1) (fun _ _ => 2) 0 1).1,
   (getNextAudioBlock_prior_contents_irrelevant 1 [] initialVoices initialSounds
      (fun _ _ => 1) (fun _ _ => 2) 0 1).2 0 0 (by decide) (by decide) (by decide)⟩

/-- C1 (code evaluation). The drain call of getNextAudioBlock passes the
block's start offset where the number of samples belongs: with one pending
event at timestamp 100 and a callback for samples [0, 512), the call
drains nothing - the event lies within the render window, yet is not
consumed - while draining with the block's sample count (as the spec
states) would consume exactly that event. -/
theorem getNextAudioBlock_drain_bug :
    getNextAudioBlockDrainedEvents
        [{ ts := 100, isNoteOn := true, note := 60, velocity := 1 }] 0 512 = [] ∧
    (removeNextBlockOfMessages
        [{ ts := 100, isNoteOn := true, note := 60, velocity := 1 }] 512).1
      = [{ ts := 100, isNoteOn := true, note := 60, velocity := 1 }] :=
  ⟨rfl, rfl⟩

/-- Witness for stopNote_cases at the freshly constructed voice, whose
tailOff is 0. -/
theorem stopNote_cases_witness :
    stopNote mkSineWaveVoice true = { mkSineWaveVoice with tailOff := 1 } ∧
    stopNote mkSineWaveVoice false
      = { mkSineWaveVoice with currentNote := none, angleDelta := 0 } :=
  ⟨(stopNote_cases mkSineWaveVoice).1 rfl, (stopNote_cases mkSineWaveVoice).2.2.1⟩

end SynthMidi
